import Mathlib

/-!
Verification of the AXON Linux bridge core against its specification.

The definitions below are a shallow embedding of the Rust sources:
  - `src/input_lock.rs`  (input lock controller, watchdog, emergency unlock)
  - `src/main.rs`        (bridge RPC service, watchdog timer task)
  - `src/video/mod.rs`   (quality presets and bitrate computation)
  - `src/video/encoder.rs` (software encoder)
  - `src/streaming/stream_manager.rs` (stream statistics)
  - `src/audio/ring_buffer.rs` (SPSC ring buffer)
  - `src/a11y/normalizer.rs` (shortcut normalizer)
  - `src/desktop_apps.rs` (application index fuzzy lookup)

Machine integers are modelled as `Nat` with explicit reduction modulo `2 ^ 32`
where `u32` overflow matters.  External effects (the `xinput` commands run by
the lock controller) are modelled by boolean oracles giving the success or
failure of each attempted command invocation.  Time is modelled in seconds.
-/

namespace AxonBridge

/-! ## Input lock controller (`src/input_lock.rs`)

State of `InputLockController`: the device ids are irrelevant to the lock
state machine, so only `locked_at`, `lock_timeout` and `is_locked` are kept.
`Instant` values are seconds as `Nat`. -/

structure InputLockController where
  lockedAt : Option Nat
  lockTimeout : Nat
  isLocked : Bool
  deriving Repr, DecidableEq

/-- `InputLockController::new`: unlocked, five minute timeout. -/
def InputLockController.new : InputLockController :=
  { lockedAt := none, lockTimeout := 5 * 60, isLocked := false }

/-- Success of a bounded retry loop: the code tries attempts `1..=MAX_RETRIES`
and stops at the first success, so the loop succeeds exactly when one of the
first `maxRetries` oracle entries is `true`. -/
def retriesSucceed (env : List Bool) (maxRetries : Nat) : Bool :=
  (env.take maxRetries).any id

/-- `InputLockController::lock_inputs`.  `env` gives the result of each
`lock_inputs_attempt` invocation in order; `now` is the current time.
Returns the new state, whether the call returned `Ok`, and the number of
underlying attempts performed. -/
def InputLockController.lock_inputs (c : InputLockController) (now : Nat)
    (env : List Bool) : InputLockController × Bool × Nat :=
  if c.isLocked then
    (c, true, 0)
  else if retriesSucceed env 3 then
    ({ c with isLocked := true, lockedAt := some now },
      true, ((env.take 3).takeWhile (fun b => !b)).length + 1)
  else
    (c, false, 3)

/-- `InputLockController::unlock_inputs`.  Same oracle convention as
`lock_inputs`; on success clears `is_locked` and `locked_at`. -/
def InputLockController.unlock_inputs (c : InputLockController)
    (env : List Bool) : InputLockController × Bool × Nat :=
  if !c.isLocked then
    (c, true, 0)
  else if retriesSucceed env 3 then
    ({ c with isLocked := false, lockedAt := none },
      true, ((env.take 3).takeWhile (fun b => !b)).length + 1)
  else
    (c, false, 3)

/-- `InputLockController::is_locked`. -/
def InputLockController.is_locked (c : InputLockController) : Bool :=
  c.isLocked

/-- `InputLockController::time_locked` at time `now`. -/
def InputLockController.time_locked (c : InputLockController) (now : Nat) :
    Option Nat :=
  c.lockedAt.map (fun t => now - t)

/-- `InputLockController::should_timeout` at time `now`:
`locked_at.elapsed() > lock_timeout`. -/
def InputLockController.should_timeout (c : InputLockController) (now : Nat) :
    Bool :=
  match c.lockedAt with
  | some lockedAt => decide (now - lockedAt > c.lockTimeout)
  | none => false

/-- `InputLockController::emergency_unlock`: clears `is_locked` and
`locked_at` first, then performs exactly one `unlock_inputs_attempt`,
whose oracle result is `attemptOk`; the call returns `Ok` iff that single
attempt succeeded. -/
def InputLockController.emergency_unlock (c : InputLockController)
    (attemptOk : Bool) : InputLockController × Bool × Nat :=
  ({ c with isLocked := false, lockedAt := none }, attemptOk, 1)

/-! ## Bridge RPC service (`src/main.rs`)

`BridgeService` owns the single `InputLockController`.  Only the RPC
handlers that touch the lock state are modelled; every other method of the
`DesktopAgent` surface leaves the controller untouched. -/

/-- `BridgeService::set_input_lock`: drives `lock_inputs` or `unlock_inputs`
depending on the requested direction; `env` is the attempt oracle of the
invoked operation. -/
def setInputLock (locked : Bool) (now : Nat) (env : List Bool)
    (c : InputLockController) : InputLockController :=
  if locked then (c.lock_inputs now env).1 else (c.unlock_inputs env).1

/-- `BridgeService::unregister_agent`: if the controller is still locked it
calls `unlock_inputs`; a failure of that call is only logged and the handler
still returns success. -/
def unregisterAgent (env : List Bool) (c : InputLockController) :
    InputLockController :=
  if c.is_locked then (c.unlock_inputs env).1 else c

/-- An RPC call as far as the input-lock state is concerned.  `otherRpc`
stands for every method of the service that does not touch the lock
(register, heartbeat, screenshots, system queries, ...). -/
inductive RpcCall where
  | setLock (locked : Bool) (env : List Bool)
  | unregister (env : List Bool)
  | otherRpc
  deriving Repr, DecidableEq

/-- Effect of one RPC call on the lock controller; `now` is the time at
which the call is served. -/
def applyRpc (now : Nat) (c : InputLockController) : RpcCall → InputLockController
  | RpcCall.setLock locked env => setInputLock locked now env c
  | RpcCall.unregister env => unregisterAgent env c
  | RpcCall.otherRpc => c

/-- Run a sequence of RPC calls; `times` assigns a service time to each call
by position. -/
def runRpcs (times : Nat → Nat) : List RpcCall → InputLockController →
    InputLockController :=
  go 0
where
  go (i : Nat) : List RpcCall → InputLockController → InputLockController
    | [], c => c
    | call :: rest, c => go (i + 1) rest (applyRpc (times i) c call)

/-! ## Watchdog timer (`src/main.rs`, `start_watchdog_timer`)

The watchdog task wakes every 5 seconds; on each wake it checks
`should_timeout` and, when it fires, calls `unlock_inputs`. -/

/-- One wake of the watchdog task at time `now`; `env` is the oracle of the
`unlock_inputs` call it may perform. -/
def watchdogCheck (now : Nat) (env : List Bool) (c : InputLockController) :
    InputLockController :=
  if c.should_timeout now then (c.unlock_inputs env).1 else c

/-- Clock granularity of the watchdog task (`Duration::from_secs(5)`). -/
def watchdogPeriod : Nat := 5

/-- One second of quiet system time `now` (no RPC traffic): the watchdog
runs iff `now` is a multiple of its period.  `wenv now` is the attempt
oracle of the unlock call the watchdog may make at that time. -/
def quietTick (wenv : Nat → List Bool) (now : Nat)
    (c : InputLockController) : InputLockController :=
  if now % watchdogPeriod = 0 then watchdogCheck now (wenv now) c else c

/-- Run `n` quiet seconds starting right after time `t`. -/
def runQuiet (wenv : Nat → List Bool) (c : InputLockController)
    (t : Nat) : Nat → InputLockController
  | 0 => c
  | n + 1 => runQuiet wenv (quietTick wenv (t + 1) c) (t + 1) n

/-! ## Video quality presets (`src/video/mod.rs`)

`u32` arithmetic is `Nat` reduced modulo `2 ^ 32`; Rust release builds wrap
on overflow, which the explicit reduction reproduces. -/

/-- Reduction of a `u32` computation modulo the word size. -/
def u32Mod (n : Nat) : Nat := n % 2 ^ 32

/-- `Quality` preset. -/
inductive Quality where
  | low
  | medium
  | high
  | custom (bitrate : Nat)
  deriving Repr, DecidableEq

/-- `Codec`. -/
inductive Codec where
  | h264
  | h265
  deriving Repr, DecidableEq

/-- `Quality::bitrate_kbps`: `pixels = width * height` as `u32`, then the
preset formulas with `u32` multiplication. -/
def Quality.bitrate_kbps (q : Quality) (width height : Nat) : Nat :=
  let pixels := u32Mod (width * height)
  match q with
  | Quality.low => max (pixels / 2000) 500
  | Quality.medium => max (u32Mod (pixels * 3) / 2000) 1000
  | Quality.high => max (u32Mod (pixels * 5) / 2000) 2000
  | Quality.custom bitrate => bitrate

/-! ## Video encoder (`src/video/encoder.rs`) -/

/-- `PixelFormat` of a raw frame. -/
inductive PixelFormat where
  | bgra
  | rgba
  | rgb24
  | yuv420
  deriving Repr, DecidableEq

/-- `RawFrame`: pixel bytes with dimensions and bookkeeping. -/
structure RawFrame where
  data : List Nat
  width : Nat
  height : Nat
  format : PixelFormat
  timestampMs : Nat
  sequence : Nat
  deriving Repr, DecidableEq

/-- `EncoderConfig`. -/
structure EncoderConfig where
  width : Nat
  height : Nat
  fps : Nat
  quality : Quality
  codec : Codec
  hardwareAccel : Bool
  keyframeInterval : Nat
  deriving Repr, DecidableEq

/-- `EncodedFrame`. -/
structure EncodedFrame where
  data : List Nat
  timestampMs : Nat
  sequence : Nat
  is_keyframe : Bool
  pts : Nat
  dts : Nat
  width : Nat
  height : Nat
  deriving Repr, DecidableEq

/-- `SoftwareEncoder` state. -/
structure SoftwareEncoder where
  config : EncoderConfig
  frameCount : Nat
  requestKeyframeFlag : Bool
  deriving Repr, DecidableEq

/-- `SoftwareEncoder::new`: fresh encoder with a zero frame counter. -/
def SoftwareEncoder.new (config : EncoderConfig) : SoftwareEncoder :=
  { config := config, frameCount := 0, requestKeyframeFlag := false }

/-- `SoftwareEncoder::encode`: increments the frame counter and emits a
frame whose `is_keyframe` is `frame_count % keyframe_interval == 1`.
`timestampMs` stands for the wall clock read inside the call; the raw frame
content is not inspected by this (stub) encoder. -/
def SoftwareEncoder.encode (e : SoftwareEncoder) (_frame : RawFrame)
    (timestampMs : Nat) : SoftwareEncoder × EncodedFrame :=
  let frameCount := e.frameCount + 1
  ({ e with frameCount := frameCount },
   { data := []
     timestampMs := timestampMs
     sequence := frameCount
     is_keyframe := decide (frameCount % e.config.keyframeInterval = 1)
     pts := frameCount
     dts := frameCount
     width := e.config.width
     height := e.config.height })

/-- `StreamManager::encode_loop` builds its encoder configuration with
`keyframe_interval: fps * 2` (`src/streaming/stream_manager.rs`). -/
def encodeLoopEncoderConfig (quality : Quality) (fps width height : Nat) :
    EncoderConfig :=
  { width := width
    height := height
    fps := fps
    quality := quality
    codec := Codec.h264
    hardwareAccel := true
    keyframeInterval := fps * 2 }

/-! ## Stream statistics (`src/streaming/stream_manager.rs`) -/

/-- The atomic counters owned by `StreamManager`. -/
structure StreamCounters where
  framesCaptured : Nat
  framesEncoded : Nat
  framesTransmitted : Nat
  framesDropped : Nat
  totalEncodeUs : Nat
  totalLatencyUs : Nat
  deriving Repr, DecidableEq

/-- `StreamStats` as returned by `get_stats`; averages are exact rationals
standing for the `f64` divisions. -/
structure StreamStats where
  framesCaptured : Nat
  framesEncoded : Nat
  framesTransmitted : Nat
  framesDropped : Nat
  avgEncodeMs : ℚ
  avgLatencyMs : ℚ
  currentBitrateKbps : Nat
  uptimeSecs : Nat

/-- `StreamManager::get_stats`: averages guard against a zero frame count
before dividing, and microseconds are converted to milliseconds. -/
def get_stats (c : StreamCounters) (uptimeSecs : Nat) (quality : Quality)
    (frameWidth frameHeight : Nat) : StreamStats :=
  let framesEncoded := c.framesEncoded
  let framesTransmitted := c.framesTransmitted
  let avgEncodeMs : ℚ :=
    if framesEncoded > 0 then
      (c.totalEncodeUs : ℚ) / (framesEncoded : ℚ) / 1000
    else 0
  let avgLatencyMs : ℚ :=
    if framesTransmitted > 0 then
      (c.totalLatencyUs : ℚ) / (framesTransmitted : ℚ) / 1000
    else 0
  { framesCaptured := c.framesCaptured
    framesEncoded := framesEncoded
    framesTransmitted := framesTransmitted
    framesDropped := c.framesDropped
    avgEncodeMs := avgEncodeMs
    avgLatencyMs := avgLatencyMs
    currentBitrateKbps := quality.bitrate_kbps frameWidth frameHeight
    uptimeSecs := uptimeSecs }

/-! ## Shortcut normalizer (`src/a11y/normalizer.rs`) -/

/-- `str::to_lowercase`, charwise (the inputs in this code base are
ASCII). -/
def toLowerStr (s : String) : String := String.mk (s.data.map Char.toLower)

/-- `str::trim`: drop leading and trailing whitespace. -/
def trimStr (s : String) : String :=
  String.mk
    (((s.data.dropWhile Char.isWhitespace).reverse.dropWhile
      Char.isWhitespace).reverse)

/-- Splitting of a character list on a separator predicate, matching Rust
`str::split`: separators delimit (possibly empty) groups. -/
def splitChars (p : Char → Bool) : List Char → List (List Char)
  | [] => [[]]
  | c :: cs =>
    if p c then [] :: splitChars p cs
    else
      match splitChars p cs with
      | [] => [[c]]
      | g :: gs => (c :: g) :: gs

/-- The per-token mapping of `ShortcutNormalizer::normalize`: lowercase the
token, then map it through the modifier vocabulary, keeping other tokens
as their lowercased selves. -/
def normKey (part : String) : String :=
  let lower := toLowerStr part
  if lower = "control" ∨ lower = "ctrl" then "ctrl"
  else if lower = "alt" ∨ lower = "meta" then "alt"
  else if lower = "shift" then "shift"
  else if lower = "super" ∨ lower = "cmd" ∨ lower = "command" ∨
      lower = "win" ∨ lower = "windows" then "command"
  else if lower = "del" ∨ lower = "delete" then "delete"
  else if lower = "esc" ∨ lower = "escape" then "esc"
  else if lower = "return" ∨ lower = "enter" then "return"
  else if lower = "tab" then "tab"
  else if lower = "space" then "space"
  else if lower = "backspace" then "backspace"
  else lower

/-- `ShortcutNormalizer::normalize`: strip `<`, replace `>` by a space,
split on `+` or space, trim, drop empties, and normalise each token. -/
def normalize (shortcut : String) : List String :=
  if shortcut = "" then []
  else
    let clean : List Char :=
      (shortcut.data.filter (fun c => c ≠ '<')).map
        (fun c => if c = '>' then ' ' else c)
    let parts : List String :=
      ((splitChars (fun c => c == '+' || c == ' ') clean).map
        (fun cs => trimStr (String.mk cs))).filter (fun s => s ≠ "")
    parts.map normKey

/-- `ShortcutNormalizer::to_command`: join the normalised keys with `+`. -/
def to_command (keys : List String) : String :=
  if keys = [] then "" else String.intercalate "+" keys

/-- The fixed vocabulary of normalised modifier and special keys. -/
def keyVocabulary : List String :=
  ["ctrl", "alt", "shift", "command", "return", "tab", "space", "esc",
   "delete", "backspace"]

/-! ## Application index (`src/desktop_apps.rs`)

The fuzzy matcher (`SkimMatcherV2::fuzzy_match`) is an external crate; it is
modelled as an oracle `score : haystack → needle → Option Int`.  Everything
`find_app` does around it is embedded from the source. -/

/-- `DesktopApp` parsed from a `.desktop` entry. -/
structure DesktopApp where
  id : String
  name : String
  exec : String
  keywords : List String
  generic_name : String
  path : String
  deriving Repr, DecidableEq

/-- `scores.into_iter().filter_map(|s| s).max().unwrap_or(0)`. -/
def maxScoreOrZero (scores : List (Option Int)) : Int :=
  match scores.filterMap id with
  | [] => 0
  | x :: xs => xs.foldl max x

/-- The list of fuzzy scores `find_app` collects for one entry: name, id,
generic name, then each keyword, all lowercased, scored against the
lowercased query. -/
def entryScores (score : String → String → Option Int) (queryLower : String)
    (app : DesktopApp) : List (Option Int) :=
  [score (toLowerStr app.name) queryLower,
   score (toLowerStr app.id) queryLower,
   score (toLowerStr app.generic_name) queryLower] ++
  app.keywords.map (fun k => score (toLowerStr k) queryLower)

/-- The per-entry score: maximum over the scored fields, `0` when no field
matched. -/
def entryScore (score : String → String → Option Int) (queryLower : String)
    (app : DesktopApp) : Int :=
  maxScoreOrZero (entryScores score queryLower app)

/-- One step of the best-match scan in `find_app`. -/
def findAppStep (score : String → String → Option Int) (queryLower : String)
    (acc : Int × Option DesktopApp) (app : DesktopApp) :
    Int × Option DesktopApp :=
  let maxScore := entryScore score queryLower app
  if maxScore > acc.1 then (maxScore, some app) else acc

/-- `AppIndex::find_app`: scan all entries keeping the best strictly
improving score (starting from `0`), then return the best entry only when
its score exceeds `30`. -/
def find_app (score : String → String → Option Int) (apps : List DesktopApp)
    (query : String) : Option DesktopApp :=
  let queryLower := toLowerStr query
  let result := apps.foldl (findAppStep score queryLower) ((0 : Int), none)
  if result.1 > 30 then result.2 else none

/-! ## Audio ring buffer (`src/audio/ring_buffer.rs`)

The sample memory is a function `Nat → α` (the code works on `f32`; the
two `copy_nonoverlapping` calls only move values, so the element type is a
parameter).  A contiguous `memcpy` becomes `setRange`; reading a contiguous
region becomes `readRange`. -/

/-- Write the list `xs` into memory at positions `start, start+1, ...`
(a contiguous `copy_nonoverlapping` into the buffer). -/
def setRange {α : Type} (data : Nat → α) (start : Nat) (xs : List α) :
    Nat → α :=
  fun j =>
    if start ≤ j ∧ j < start + xs.length then
      ((xs.get? (j - start)).getD (data j))
    else data j

/-- Read `count` elements of memory starting at `start` (a contiguous
`copy_nonoverlapping` out of the buffer). -/
def readRange {α : Type} (data : Nat → α) (start count : Nat) : List α :=
  (List.range count).map (fun i => data (start + i))

/-- `RingBuffer` state: sample memory, fixed capacity and the two
positions. -/
structure RingBuffer (α : Type) where
  buffer : Nat → α
  capacity : Nat
  writePos : Nat
  readPos : Nat

/-- `RingBuffer::new`: zeroed memory, both positions zero. -/
def RingBuffer.new (α : Type) [Inhabited α] (capacity : Nat) : RingBuffer α :=
  { buffer := fun _ => default, capacity := capacity, writePos := 0,
    readPos := 0 }

/-- `RingBuffer::available_read_samples`. -/
def availableReadSamples (capacity writePos readPos : Nat) : Nat :=
  if writePos ≥ readPos then writePos - readPos
  else capacity - readPos + writePos

/-- `RingBuffer::available_write_space`: one slot is reserved to
distinguish full from empty. -/
def availableWriteSpace (capacity writePos readPos : Nat) : Nat :=
  capacity - availableReadSamples capacity writePos readPos - 1

/-- `RingBuffer::write`: writes `min(len, free)` samples, split in two
contiguous parts at the wrap boundary, then advances `write_pos` modulo the
capacity.  Returns the new state and the number of samples written. -/
def RingBuffer.write {α : Type} (rb : RingBuffer α) (samples : List α) :
    RingBuffer α × Nat :=
  let available := availableWriteSpace rb.capacity rb.writePos rb.readPos
  let toWrite := min samples.length available
  if toWrite = 0 then (rb, 0)
  else
    let endPos := rb.writePos + toWrite
    let newBuffer :=
      if endPos ≤ rb.capacity then
        setRange rb.buffer rb.writePos (samples.take toWrite)
      else
        let firstPart := rb.capacity - rb.writePos
        setRange (setRange rb.buffer rb.writePos (samples.take firstPart)) 0
          ((samples.drop firstPart).take (toWrite - firstPart))
    ({ rb with
        buffer := newBuffer
        writePos := (rb.writePos + toWrite) % rb.capacity }, toWrite)

/-- `RingBuffer::read` with an output slice of length `outputLen`: produces
`min(outputLen, available)` samples, split in two contiguous parts at the
wrap boundary, then advances `read_pos` modulo the capacity.  Returns the
new state and the samples produced. -/
def RingBuffer.read {α : Type} (rb : RingBuffer α) (outputLen : Nat) :
    RingBuffer α × List α :=
  let available := availableReadSamples rb.capacity rb.writePos rb.readPos
  let toRead := min outputLen available
  if toRead = 0 then (rb, [])
  else
    let endPos := rb.readPos + toRead
    let result :=
      if endPos ≤ rb.capacity then
        readRange rb.buffer rb.readPos toRead
      else
        let firstPart := rb.capacity - rb.readPos
        readRange rb.buffer rb.readPos firstPart ++
          readRange rb.buffer 0 (toRead - firstPart)
    ({ rb with readPos := (rb.readPos + toRead) % rb.capacity }, result)

/-- `RingBuffer::available`. -/
def RingBuffer.available {α : Type} (rb : RingBuffer α) : Nat :=
  availableReadSamples rb.capacity rb.writePos rb.readPos

/-- `RingBuffer::is_empty`. -/
def RingBuffer.is_empty {α : Type} (rb : RingBuffer α) : Bool :=
  rb.available = 0

/-- `RingBuffer::is_full`. -/
def RingBuffer.is_full {α : Type} (rb : RingBuffer α) : Bool :=
  availableWriteSpace rb.capacity rb.writePos rb.readPos = 0

/-- `RingBuffer::clear`: the read position catches up with the write
position. -/
def RingBuffer.clear {α : Type} (rb : RingBuffer α) : RingBuffer α :=
  { rb with readPos := rb.writePos }

/-- Well-formedness of a ring-buffer state: both positions are in range
(they are maintained modulo the capacity). -/
def RingBuffer.Valid {α : Type} (rb : RingBuffer α) : Prop :=
  rb.writePos < rb.capacity ∧ rb.readPos < rb.capacity

/-- The pending samples, oldest first: the `available` slots starting at
`read_pos`, wrapping modulo the capacity. -/
def RingBuffer.contents {α : Type} (rb : RingBuffer α) : List α :=
  (List.range rb.available).map
    (fun i => rb.buffer ((rb.readPos + i) % rb.capacity))

/-- One operation of a single-producer single-consumer client. -/
inductive RBOp (α : Type) where
  | write (xs : List α)
  | read (outputLen : Nat)

/-- Accumulated observations while running a sequence of operations:
current state, all samples accepted by `write` in order, all samples
returned by `read` in order, and the sums of the returned counts. -/
structure RBTrace (α : Type) where
  rb : RingBuffer α
  written : List α
  readOut : List α
  writtenSum : Nat
  readSum : Nat

/-- Run one client operation. -/
def rbStep {α : Type} (tr : RBTrace α) : RBOp α → RBTrace α
  | RBOp.write xs =>
    let res := tr.rb.write xs
    { rb := res.1
      written := tr.written ++ xs.take res.2
      readOut := tr.readOut
      writtenSum := tr.writtenSum + res.2
      readSum := tr.readSum }
  | RBOp.read outputLen =>
    let res := tr.rb.read outputLen
    { rb := res.1
      written := tr.written
      readOut := tr.readOut ++ res.2
      writtenSum := tr.writtenSum
      readSum := tr.readSum + res.2.length }

/-- Run a sequence of client operations from a fresh buffer. -/
def rbRun {α : Type} [Inhabited α] (capacity : Nat) (ops : List (RBOp α)) :
    RBTrace α :=
  ops.foldl rbStep
    { rb := RingBuffer.new α capacity, written := [], readOut := [],
      writtenSum := 0, readSum := 0 }

/-- A one-entry index used to examine the exact-match behaviour of
`find_app`. -/
def editorApp : DesktopApp :=
  { id := "editor.desktop"
    name := "Editor"
    exec := "editor"
    keywords := []
    generic_name := ""
    path := "/usr/share/applications/editor.desktop" }

/-! ## Theorems -/

/-- C3: `emergency_unlock` skips the retry loop: from any controller state
a single call performs exactly one (hence at most one) underlying unlock
attempt, leaves the controller unlocked, and returns `Ok` exactly when that
single attempt succeeded (otherwise the error is surfaced). -/
theorem emergency_unlock_single_attempt
    (c : InputLockController) (attemptOk : Bool) (now : Nat) :
    (c.emergency_unlock attemptOk).2.2 = 1 ∧
    (c.emergency_unlock attemptOk).1.is_locked = false ∧
    (c.emergency_unlock attemptOk).1.time_locked now = none ∧
    ((c.emergency_unlock attemptOk).2.1 = true ↔ attemptOk = true) := by
  refine ⟨rfl, rfl, rfl, Iff.rfl⟩

/-- C9: `emergency_unlock` clears the observable lock state before the
reattach attempt and never rolls it back: whatever the attempt outcome,
afterwards `is_locked()` is `false`, `time_locked()` is `None`, and the
resulting controller state does not depend on whether the underlying
reattach succeeded. -/
theorem emergency_unlock_clears_state
    (c : InputLockController) (attemptOk : Bool) (now : Nat) :
    (c.emergency_unlock attemptOk).1.is_locked = false ∧
    (c.emergency_unlock attemptOk).1.time_locked now = none ∧
    (c.emergency_unlock attemptOk).1 = (c.emergency_unlock true).1 := by
  refine ⟨rfl, rfl, rfl⟩

/-- C7 counterexample: at resolution 32768 x 32768 the `u32` product
`pixels * 5` wraps, so `bitrate_kbps` for `High` drops below `Medium`; the
claimed strict monotonicity fails at this concrete resolution. -/
theorem bitrate_monotone_counterexample :
    ¬ (Quality.medium.bitrate_kbps 32768 32768 <
       Quality.high.bitrate_kbps 32768 32768) := by
  decide

/-- C7 (amended): whenever `5 * width * height` fits in a `u32` (so no
multiplication wraps), the preset bitrates are strictly monotone at every
fixed resolution, and `Custom(k)` returns `k` at every resolution. -/
theorem bitrate_monotone_no_overflow :
    (∀ width height : Nat, 5 * (width * height) < 2 ^ 32 →
      Quality.low.bitrate_kbps width height <
        Quality.medium.bitrate_kbps width height ∧
      Quality.medium.bitrate_kbps width height <
        Quality.high.bitrate_kbps width height) ∧
    (∀ width height k : Nat,
      (Quality.custom k).bitrate_kbps width height = k) := by
  constructor
  · intro width height h
    obtain ⟨p, hp⟩ : ∃ p, width * height = p := ⟨width * height, rfl⟩
    rw [hp] at h
    have h1 : p < 2 ^ 32 := by omega
    simp only [Quality.bitrate_kbps, u32Mod, hp]
    rw [Nat.mod_eq_of_lt h1, Nat.mod_eq_of_lt (by omega : p * 3 < 2 ^ 32),
      Nat.mod_eq_of_lt (by omega : p * 5 < 2 ^ 32)]
    omega
  · intro width height k
    rfl

/-- C7 witness: the amended monotonicity at 1920 x 1080 and the custom
bitrate at 4000 kbps. -/
theorem bitrate_monotone_no_overflow_witness :
    (Quality.low.bitrate_kbps 1920 1080 <
       Quality.medium.bitrate_kbps 1920 1080 ∧
     Quality.medium.bitrate_kbps 1920 1080 <
       Quality.high.bitrate_kbps 1920 1080) ∧
    (Quality.custom 4000).bitrate_kbps 1920 1080 = 4000 :=
  ⟨bitrate_monotone_no_overflow.1 1920 1080 (by decide),
   bitrate_monotone_no_overflow.2 1920 1080 4000⟩

/-- C10: `get_stats` never divides by zero: with a zero frame count the
corresponding average is `0`, and with a nonzero count the average times
the count times 1000 recovers the accumulated microsecond total. -/
theorem get_stats_no_div_by_zero (c : StreamCounters) (uptimeSecs : Nat)
    (q : Quality) (frameWidth frameHeight : Nat) :
    (c.framesEncoded = 0 →
      (get_stats c uptimeSecs q frameWidth frameHeight).avgEncodeMs = 0) ∧
    (c.framesEncoded ≠ 0 →
      (get_stats c uptimeSecs q frameWidth frameHeight).avgEncodeMs *
        (c.framesEncoded : ℚ) * 1000 = (c.totalEncodeUs : ℚ)) ∧
    (c.framesTransmitted = 0 →
      (get_stats c uptimeSecs q frameWidth frameHeight).avgLatencyMs = 0) ∧
    (c.framesTransmitted ≠ 0 →
      (get_stats c uptimeSecs q frameWidth frameHeight).avgLatencyMs *
        (c.framesTransmitted : ℚ) * 1000 = (c.totalLatencyUs : ℚ)) := by
  refine ⟨?_, ?_, ?_, ?_⟩
  · intro h
    simp [get_stats, h]
  · intro h
    have hne : (c.framesEncoded : ℚ) ≠ 0 := Nat.cast_ne_zero.mpr h
    simp only [get_stats, if_pos (Nat.pos_of_ne_zero h)]
    field_simp
    ring
  · intro h
    simp [get_stats, h]
  · intro h
    have hne : (c.framesTransmitted : ℚ) ≠ 0 := Nat.cast_ne_zero.mpr h
    simp only [get_stats, if_pos (Nat.pos_of_ne_zero h)]
    field_simp
    ring

/-- C10 witness: concrete counters with two encoded and four transmitted
frames. -/
theorem get_stats_no_div_by_zero_witness :
    (get_stats
      { framesCaptured := 9, framesEncoded := 2, framesTransmitted := 4,
        framesDropped := 3, totalEncodeUs := 5000, totalLatencyUs := 6000 }
      7 Quality.low 1920 1080).avgEncodeMs * ((2 : Nat) : ℚ) * 1000 =
      ((5000 : Nat) : ℚ) :=
  (get_stats_no_div_by_zero
    { framesCaptured := 9, framesEncoded := 2, framesTransmitted := 4,
      framesDropped := 3, totalEncodeUs := 5000, totalLatencyUs := 6000 }
    7 Quality.low 1920 1080).2.1 (by decide)

/-- Helper: every token produced by `normKey` is either a word of the fixed
vocabulary or the lowercased input token. -/
theorem normKey_cases (p : String) :
    normKey p ∈ keyVocabulary ∨ normKey p = toLowerStr p := by
  unfold normKey
  dsimp only
  split_ifs <;> simp [keyVocabulary]

/-- C8: the three specified normalisations hold; every normalised token is
either in the fixed vocabulary `ctrl|alt|shift|command|return|tab|space|esc|
delete|backspace` or is a lowercased literal; and `to_command` joins the
normalised keys with a plus sign. -/
theorem normalize_spec :
    normalize "<Control>l" = ["ctrl", "l"] ∧
    normalize "Ctrl+Shift+N" = ["ctrl", "shift", "n"] ∧
    normalize "g" = ["g"] ∧
    (∀ s k, k ∈ normalize s →
      k ∈ keyVocabulary ∨ ∃ p, k = toLowerStr p) ∧
    (∀ keys, to_command keys = String.intercalate "+" keys) := by
  refine ⟨by decide, by decide, by decide, ?_, ?_⟩
  · intro s k hk
    unfold normalize at hk
    split at hk
    · simp at hk
    · simp only [List.mem_map] at hk
      obtain ⟨p, hp, rfl⟩ := hk
      rcases normKey_cases p with h | h
      · exact Or.inl h
      · exact Or.inr ⟨p, h⟩
  · intro keys
    unfold to_command
    split
    · rename_i h
      rw [h]
      rfl
    · rfl

/-- C8 witness: the vocabulary property instantiated at the token `ctrl` of
`normalize "Ctrl+L"`. -/
theorem normalize_spec_witness :
    "ctrl" ∈ keyVocabulary ∨ ∃ p, "ctrl" = toLowerStr p :=
  normalize_spec.2.2.2.1 "Ctrl+L" "ctrl" (by decide)

/-- C4 counterexample: with `keyframe_interval = 1` the first frame of a
freshly initialised software encoder is not a keyframe, because
`1 % 1 == 1` is false; the claim quantified over every freshly initialised
encoder fails at this concrete configuration. -/
theorem first_frame_keyframe_counterexample :
    ((SoftwareEncoder.new
      { width := 1920, height := 1080, fps := 30, quality := Quality.medium,
        codec := Codec.h264, hardwareAccel := false,
        keyframeInterval := 1 }).encode
      { data := [], width := 1920, height := 1080,
        format := PixelFormat.bgra, timestampMs := 0, sequence := 1 }
      0).2.is_keyframe = false := by
  decide

/-- C4 (amended): for every freshly initialised software encoder whose
`keyframe_interval` is at least 2, the first frame produced by `encode` is
a keyframe; in particular the streaming pipeline, which configures its
encoder with `keyframe_interval = fps * 2`, gets a leading keyframe for
every frame rate of at least 1. -/
theorem first_frame_keyframe :
    (∀ (cfg : EncoderConfig) (frame : RawFrame) (ts : Nat),
      2 ≤ cfg.keyframeInterval →
      ((SoftwareEncoder.new cfg).encode frame ts).2.is_keyframe = true) ∧
    (∀ (q : Quality) (fps width height : Nat) (frame : RawFrame) (ts : Nat),
      1 ≤ fps →
      ((SoftwareEncoder.new
        (encodeLoopEncoderConfig q fps width height)).encode frame ts).2.is_keyframe
        = true) := by
  have hfirst : ∀ (cfg : EncoderConfig) (frame : RawFrame) (ts : Nat),
      2 ≤ cfg.keyframeInterval →
      ((SoftwareEncoder.new cfg).encode frame ts).2.is_keyframe = true := by
    intro cfg frame ts h
    simp only [SoftwareEncoder.new, SoftwareEncoder.encode]
    have : (0 + 1) % cfg.keyframeInterval = 1 := Nat.mod_eq_of_lt (by omega)
    simp [this]
  refine ⟨hfirst, ?_⟩
  intro q fps width height frame ts h
  exact hfirst (encodeLoopEncoderConfig q fps width height) frame ts
    (by simp [encodeLoopEncoderConfig]; omega)

/-- C4 witness: the default pipeline configuration (30 fps, interval 60)
produces a keyframe first. -/
theorem first_frame_keyframe_witness :
    ((SoftwareEncoder.new
      (encodeLoopEncoderConfig Quality.medium 30 1920 1080)).encode
      { data := [], width := 1920, height := 1080,
        format := PixelFormat.bgra, timestampMs := 0, sequence := 1 }
      5).2.is_keyframe = true :=
  first_frame_keyframe.2 Quality.medium 30 1920 1080
    { data := [], width := 1920, height := 1080,
      format := PixelFormat.bgra, timestampMs := 0, sequence := 1 }
    5 (by decide)

/-- Helper: a successful `unlock_inputs` call (one of the first three
attempts succeeds) always leaves the controller unlocked, whatever the
state before the call. -/
theorem unlock_inputs_unlocks (c : InputLockController) (env : List Bool)
    (h : retriesSucceed env 3 = true) :
    ((c.unlock_inputs env).1).is_locked = false := by
  unfold InputLockController.unlock_inputs InputLockController.is_locked
  rcases hc : c.isLocked with _ | _ <;> simp [hc, h]

/-- Helper: appending a final call to an RPC sequence applies it last. -/
theorem runRpcs_go_append (times : Nat → Nat) (x : RpcCall) :
    ∀ (l : List RpcCall) (i : Nat) (c : InputLockController),
      runRpcs.go times i (l ++ [x]) c =
        applyRpc (times (i + l.length)) (runRpcs.go times i l c) x := by
  intro l
  induction l with
  | nil =>
    intro i c
    simp [runRpcs.go]
  | cons hd tl ih =>
    intro i c
    have harg : i + 1 + tl.length = i + (tl.length + 1) := by omega
    simp [runRpcs.go, ih, harg]

/-- C1 counterexample: lock succeeds, then `UnregisterAgent` is served
while every reattach attempt of its `unlock_inputs` call fails; the handler
logs the error, returns success, and the lock state is still `Locked`, so
the unlock on teardown is not unconditional. -/
theorem unregister_unlock_counterexample :
    (runRpcs (fun _ => 0)
      [RpcCall.setLock true [true],
       RpcCall.unregister [false, false, false]]
      InputLockController.new).is_locked = true := by
  decide

/-- C1 (amended): for every sequence of RPC calls ending in
`UnregisterAgent`, if during that final call at least one of the three
`unlock_inputs` attempts succeeds (in particular whenever the underlying
`xinput reattach` commands work), the final lock state is `Unlocked`; the
unconditional form fails when all three attempts fail, in which case the
error is only logged. -/
theorem unregister_unlocks (ops : List RpcCall) (times : Nat → Nat)
    (env : List Bool) (h : retriesSucceed env 3 = true) :
    (runRpcs times (ops ++ [RpcCall.unregister env])
      InputLockController.new).is_locked = false := by
  unfold runRpcs
  rw [runRpcs_go_append]
  simp only [applyRpc, unregisterAgent]
  split
  · exact unlock_inputs_unlocks _ env h
  · rename_i hc
    simpa [InputLockController.is_locked] using hc

/-- C1 witness: a lock followed by a teardown whose unlock attempt
succeeds ends unlocked. -/
theorem unregister_unlocks_witness :
    (runRpcs (fun _ => 0)
      ([RpcCall.setLock true [true]] ++ [RpcCall.unregister [true]])
      InputLockController.new).is_locked = false :=
  unregister_unlocks [RpcCall.setLock true [true]] (fun _ => 0) [true]
    (by decide)

/-- Helper: a successful `unlock_inputs` call on a locked controller clears
both the flag and the lock instant. -/
theorem unlock_inputs_clears (c : InputLockController) (env : List Bool)
    (h : retriesSucceed env 3 = true) (hc : c.isLocked = true) :
    (c.unlock_inputs env).1.isLocked = false ∧
    (c.unlock_inputs env).1.lockedAt = none := by
  unfold InputLockController.unlock_inputs
  simp [hc, h]

/-- Helper: a quiet tick leaves a fully unlocked controller unchanged. -/
theorem quietTick_unlocked (wenv : Nat → List Bool) (u : Nat)
    (c : InputLockController) (_h1 : c.isLocked = false)
    (h2 : c.lockedAt = none) : quietTick wenv u c = c := by
  unfold quietTick watchdogCheck
  simp [InputLockController.should_timeout, h2]

/-- Helper (watchdog induction): from any point of a quiet run, a
controller that is either locked since `t0` with no watchdog wake past the
deadline so far, or already unlocked, is unlocked once the run has lasted
beyond `t0 + timeout + period`. -/
theorem runQuiet_unlocks_inv (wenv : Nat → List Bool) (t0 timeout : Nat)
    (hw : ∀ u, retriesSucceed (wenv u) 3 = true) :
    ∀ (n t : Nat) (c : InputLockController),
      ((c.isLocked = true ∧ c.lockedAt = some t0 ∧
        c.lockTimeout = timeout ∧
        (∀ u, t0 < u → u ≤ t → u % watchdogPeriod = 0 →
          u ≤ t0 + timeout)) ∨
       (c.isLocked = false ∧ c.lockedAt = none)) →
      t0 + timeout + watchdogPeriod ≤ t + n →
      (runQuiet wenv c t n).isLocked = false := by
  intro n
  induction n with
  | zero =>
    intro t c hinv ht
    rcases hinv with ⟨hL, hA, hT, hwin⟩ | ⟨hL, _⟩
    · exfalso
      have hP : watchdogPeriod = 5 := rfl
      rw [hP] at ht
      obtain ⟨u, hu5, hugt, hule⟩ :
          ∃ u, u % watchdogPeriod = 0 ∧ t0 + timeout < u ∧ u ≤ t := by
        refine ⟨5 * ((t0 + timeout) / 5 + 1), ?_, ?_, ?_⟩
        · rw [hP]
          omega
        · omega
        · omega
      have := hwin u (by omega) hule hu5
      omega
    · simpa [runQuiet] using hL
  | succ n ih =>
    intro t c hinv ht
    show (runQuiet wenv (quietTick wenv (t + 1) c) (t + 1) n).isLocked = false
    apply ih (t + 1) (quietTick wenv (t + 1) c) ?_ (by omega)
    rcases hinv with ⟨hL, hA, hT, hwin⟩ | ⟨hL, hA⟩
    · by_cases h5 : (t + 1) % watchdogPeriod = 0
      · by_cases hto : c.should_timeout (t + 1) = true
        · have heq : quietTick wenv (t + 1) c =
              (c.unlock_inputs (wenv (t + 1))).1 := by
            unfold quietTick watchdogCheck
            simp [h5, hto]
          rw [heq]
          exact Or.inr (unlock_inputs_clears c (wenv (t + 1)) (hw (t + 1)) hL)
        · have heq : quietTick wenv (t + 1) c = c := by
            unfold quietTick watchdogCheck
            simp [h5, hto]
          rw [heq]
          refine Or.inl ⟨hL, hA, hT, ?_⟩
          intro u hu1 hu2 hu5
          rcases Nat.lt_or_ge u (t + 1) with h | h
          · exact hwin u hu1 (by omega) hu5
          · have hnot : ¬ (t + 1 - t0 > timeout) := by
              intro hgt
              apply hto
              unfold InputLockController.should_timeout
              simp [hA, hT, hgt]
            omega
      · have heq : quietTick wenv (t + 1) c = c := by
          unfold quietTick
          simp [h5]
        rw [heq]
        refine Or.inl ⟨hL, hA, hT, ?_⟩
        intro u hu1 hu2 hu5
        rcases Nat.lt_or_ge u (t + 1) with h | h
        · exact hwin u hu1 (by omega) hu5
        · exfalso
          have : u = t + 1 := by omega
          rw [this] at hu5
          exact h5 hu5
    · rw [quietTick_unlocked wenv (t + 1) c hL hA]
      exact Or.inr ⟨hL, hA⟩

/-- C2: a successful `lock_inputs` call at time `t0` that is never followed
by an unlock request is force-unlocked by the watchdog task (which wakes
every `watchdogPeriod = 5` seconds and calls `unlock_inputs` once
`should_timeout` holds): after `lock_timeout + watchdogPeriod` quiet
seconds the controller reports `is_locked() = false`, provided the
watchdog's own unlock attempts can succeed.  The enforcing watchdog is the
`start_watchdog_timer` task; the `self_watchdog_timer` spawned inside
`lock_inputs` only logs. -/
theorem watchdog_forces_unlock (c0 : InputLockController) (t0 n : Nat)
    (envL : List Bool) (wenv : Nat → List Bool)
    (h0 : c0.isLocked = false)
    (hL : retriesSucceed envL 3 = true)
    (hw : ∀ u, retriesSucceed (wenv u) 3 = true)
    (hn : c0.lockTimeout + watchdogPeriod ≤ n) :
    (runQuiet wenv (c0.lock_inputs t0 envL).1 t0 n).is_locked = false := by
  have hlock : (c0.lock_inputs t0 envL).1 =
      { c0 with isLocked := true, lockedAt := some t0 } := by
    unfold InputLockController.lock_inputs
    simp [h0, hL]
  unfold InputLockController.is_locked
  apply runQuiet_unlocks_inv wenv t0 c0.lockTimeout hw n t0
  · refine Or.inl ?_
    rw [hlock]
    exact ⟨rfl, rfl, rfl, fun u hu1 hu2 _ => by omega⟩
  · omega

/-- C2 witness: a fresh controller (timeout 300 s) locked at time 0 with
always-succeeding watchdog unlocks is unlocked after 305 quiet seconds. -/
theorem watchdog_forces_unlock_witness :
    (runQuiet (fun _ => [true])
      (InputLockController.new.lock_inputs 0 [true]).1 0 305).is_locked
      = false :=
  watchdog_forces_unlock InputLockController.new 0 305 [true]
    (fun _ => [true]) rfl (by decide) (fun _ => rfl) (by decide)

/-- Helper (best-match scan invariant): folding `findAppStep` never lowers
the best score, bounds every scanned entry by the final best score, and
either returns the accumulator unchanged or an entry of the list paired
with its own score. -/
theorem findAppStep_foldl_inv (score : String → String → Option Int)
    (queryLower : String) :
    ∀ (l : List DesktopApp) (acc : Int × Option DesktopApp),
      acc.1 ≤ (l.foldl (findAppStep score queryLower) acc).1 ∧
      (∀ b ∈ l, entryScore score queryLower b ≤
        (l.foldl (findAppStep score queryLower) acc).1) ∧
      ((l.foldl (findAppStep score queryLower) acc) = acc ∨
        ∃ a ∈ l, (l.foldl (findAppStep score queryLower) acc) =
          (entryScore score queryLower a, some a)) := by
  intro l
  induction l with
  | nil =>
    intro acc
    exact ⟨le_refl _, by simp, Or.inl rfl⟩
  | cons hd tl ih =>
    intro acc
    obtain ⟨ih1, ih2, ih3⟩ := ih (findAppStep score queryLower acc hd)
    have hstep : acc.1 ≤ (findAppStep score queryLower acc hd).1 ∧
        (entryScore score queryLower hd ≤
          (findAppStep score queryLower acc hd).1) ∧
        ((findAppStep score queryLower acc hd) = acc ∨
          (findAppStep score queryLower acc hd) =
            (entryScore score queryLower hd, some hd)) := by
      unfold findAppStep
      dsimp only
      split
      · exact ⟨by omega, le_refl _, Or.inr rfl⟩
      · rename_i hgt
        exact ⟨le_refl _, by omega, Or.inl rfl⟩
    refine ⟨le_trans hstep.1 ih1, ?_, ?_⟩
    · intro b hb
      rcases List.mem_cons.mp hb with rfl | hb
      · exact le_trans hstep.2.1 ih1
      · exact ih2 b hb
    · rcases ih3 with heq | ⟨a, ha, heq⟩
      · rw [List.foldl_cons, heq]
        rcases hstep.2.2 with h | h
        · exact Or.inl h
        · exact Or.inr ⟨hd, List.mem_cons_self hd tl, h⟩
      · exact Or.inr ⟨a, List.mem_cons_of_mem hd ha, heq⟩

/-- C6 (amended): `find_app` scores the lowercased query against each
entry's lowercased name, id, generic name and keywords, takes the per-entry
maximum, and returns an entry iff the best score exceeds 30: a returned
entry is in the index, scores above 30, and dominates every other entry;
when nothing is returned every entry scores at most 30.  There is no
exact-match short-circuit in this function (that exists only in the macOS
`MacAppIndex::find`). -/
theorem find_app_characterization (score : String → String → Option Int)
    (apps : List DesktopApp) (query : String) :
    (∀ app, find_app score apps query = some app →
      app ∈ apps ∧
      30 < entryScore score (toLowerStr query) app ∧
      ∀ b ∈ apps, entryScore score (toLowerStr query) b ≤
        entryScore score (toLowerStr query) app) ∧
    (find_app score apps query = none →
      ∀ b ∈ apps, entryScore score (toLowerStr query) b ≤ 30) := by
  obtain ⟨h1, h2, h3⟩ :=
    findAppStep_foldl_inv score (toLowerStr query) apps ((0 : Int), none)
  constructor
  · intro app happ
    unfold find_app at happ
    dsimp only at happ
    split at happ
    · rename_i hgt
      rcases h3 with heq | ⟨a, ha, heq⟩
      · rw [heq] at happ
        exact absurd happ (by simp)
      · rw [heq] at happ hgt
        obtain rfl : a = app := by simpa using happ
        refine ⟨ha, by simpa using hgt, ?_⟩
        intro b hb
        have := h2 b hb
        rw [heq] at this
        simpa using this
    · exact absurd happ (by simp)
  · intro hnone b hb
    unfold find_app at hnone
    dsimp only at hnone
    split at hnone
    · rename_i hgt
      rcases h3 with heq | ⟨a, ha, heq⟩
      · rw [heq] at hgt
        simp at hgt
      · rw [heq] at hnone
        exact absurd hnone (by simp)
    · rename_i hle
      have := h2 b hb
      omega

/-- C6 witness: with a scoring oracle that rates every field 100, the
characterization applied to the one-entry index returns the entry and its
score dominates the threshold. -/
theorem find_app_characterization_witness :
    30 < entryScore (fun _ _ => some 100) (toLowerStr "Editor") editorApp :=
  (((find_app_characterization (fun _ _ => some 100) [editorApp]
    "Editor").1 editorApp (by decide)).2.1)

/-- C6 counterexample: the query `Editor` is exactly, case-insensitively,
equal to the single entry's name, yet `find_app` returns `None` when the
fuzzy scores stay at the threshold or below — there is no exact-match
short-circuit in `AppIndex::find_app`. -/
theorem find_app_no_exact_match_shortcut :
    toLowerStr "Editor" = toLowerStr editorApp.name ∧
    find_app (fun _ _ => some 5) [editorApp] "Editor" = none := by
  refine ⟨rfl, ?_⟩
  decide

/-- Helper: reduction modulo the capacity for values below twice the
capacity. -/
theorem mod_two_cases (x cap : Nat) (_hc : 0 < cap) (h : x < 2 * cap) :
    x % cap = if x < cap then x else x - cap := by
  split
  · exact Nat.mod_eq_of_lt (by omega)
  · rw [Nat.mod_eq_sub_mod (by omega)]
    exact Nat.mod_eq_of_lt (by omega)

/-- Helper: pointwise unfolding of `setRange`. -/
theorem setRange_apply {α : Type} (data : Nat → α) (start : Nat)
    (xs : List α) (j : Nat) :
    setRange data start xs j =
      if start ≤ j ∧ j < start + xs.length then
        ((xs.get? (j - start)).getD (data j))
      else data j := rfl

/-- Helper: the (possibly split) buffer write of `RingBuffer::write`,
described pointwise through the wrap distance from the write position. -/
theorem write_buffer_eq {α : Type} (buf : Nat → α) (cap w n : Nat)
    (xs : List α) (hw : w < cap) (hn : n ≤ xs.length) (hcap : n ≤ cap)
    (s : Nat) (hs : s < cap) :
    (if w + n ≤ cap then setRange buf w (xs.take n)
     else
       setRange (setRange buf w (xs.take (cap - w))) 0
         ((xs.drop (cap - w)).take (n - (cap - w)))) s =
    if (cap + s - w) % cap < n then
      ((xs.get? ((cap + s - w) % cap)).getD (buf s))
    else buf s := by
  have hd : (cap + s - w) % cap =
      if cap + s - w < cap then cap + s - w else cap + s - w - cap :=
    mod_two_cases _ _ (by omega) (by omega)
  split
  · rename_i hb
    rw [setRange_apply]
    rw [List.length_take, Nat.min_eq_left hn]
    by_cases hsw : w ≤ s
    · by_cases hin : s < w + n
      · rw [if_pos ⟨hsw, hin⟩]
        have harg : (cap + s - w) % cap = s - w := by
          split_ifs at hd <;> omega
        rw [harg, if_pos (by omega)]
        have : (xs.take n).get? (s - w) = xs.get? (s - w) := by
          rw [List.get?_eq_getElem?, List.get?_eq_getElem?,
            List.getElem?_take]
          simp [show s - w < n by omega]
        rw [this]
      · rw [if_neg (by omega)]
        have harg : (cap + s - w) % cap = s - w := by
          split_ifs at hd <;> omega
        rw [harg, if_neg (by omega)]
    · rw [if_neg (by omega)]
      have harg : (cap + s - w) % cap = cap + s - w := by
        split_ifs at hd <;> omega
      rw [harg, if_neg (by omega)]
  · rename_i hb
    have hf : cap - w < n := by omega
    have hflen : cap - w ≤ xs.length := by omega
    rw [setRange_apply]
    rw [List.length_take, List.length_drop,
      Nat.min_eq_left (by omega : n - (cap - w) ≤ xs.length - (cap - w))]
    by_cases hout : s < n - (cap - w)
    · rw [if_pos ⟨by omega, by omega⟩]
      have harg : (cap + s - w) % cap = s + (cap - w) := by
        split_ifs at hd <;> omega
      rw [harg, if_pos (by omega)]
      have : ((xs.drop (cap - w)).take (n - (cap - w))).get? (s - 0) =
          xs.get? (s + (cap - w)) := by
        rw [List.get?_eq_getElem?, List.get?_eq_getElem?,
          List.getElem?_take]
        rw [if_pos (by omega)]
        rw [List.getElem?_drop]
        congr 1
        omega
      rw [this]
      obtain ⟨v, hv⟩ : ∃ v, xs.get? (s + (cap - w)) = some v := by
        rw [List.get?_eq_getElem?]
        exact ⟨_, List.getElem?_eq_getElem (by omega)⟩
      rw [hv]
      rfl
    · rw [if_neg (by omega)]
      rw [setRange_apply]
      rw [List.length_take, Nat.min_eq_left hflen]
      by_cases hsw : w ≤ s
      · rw [if_pos ⟨hsw, by omega⟩]
        have harg : (cap + s - w) % cap = s - w := by
          split_ifs at hd <;> omega
        rw [harg, if_pos (by omega)]
        have : (xs.take (cap - w)).get? (s - w) = xs.get? (s - w) := by
          rw [List.get?_eq_getElem?, List.get?_eq_getElem?,
            List.getElem?_take]
          simp [show s - w < cap - w by omega]
        rw [this]
      · rw [if_neg (by omega)]
        have harg : (cap + s - w) % cap = s + (cap - w) := by
          split_ifs at hd <;> omega
        rw [harg, if_neg (by omega)]

/-- Helper: at most `capacity - 1` samples are ever readable (one slot is
reserved). -/
theorem avail_le (cap w r : Nat) (hw : w < cap) (hr : r < cap) :
    availableReadSamples cap w r ≤ cap - 1 := by
  unfold availableReadSamples
  split <;> omega

/-- Helper: advancing the write position by `n` written samples grows the
readable count by `n`. -/
theorem avail_after_write (cap w r n : Nat) (hw : w < cap) (hr : r < cap)
    (hn : n ≤ cap - 1 - availableReadSamples cap w r) :
    availableReadSamples cap ((w + n) % cap) r =
      availableReadSamples cap w r + n := by
  have hm : (w + n) % cap = if w + n < cap then w + n else w + n - cap := by
    apply mod_two_cases _ _ (by omega)
    unfold availableReadSamples at hn
    split at hn <;> omega
  unfold availableReadSamples at hn ⊢
  split_ifs at hm ⊢ <;> split_ifs at hn <;> omega

/-- Helper: advancing the read position by `m` read samples shrinks the
readable count by `m`. -/
theorem avail_after_read (cap w r m : Nat) (hw : w < cap) (hr : r < cap)
    (hm : m ≤ availableReadSamples cap w r) :
    availableReadSamples cap w ((r + m) % cap) =
      availableReadSamples cap w r - m := by
  have hmc : (r + m) % cap = if r + m < cap then r + m else r + m - cap := by
    apply mod_two_cases _ _ (by omega)
    unfold availableReadSamples at hm
    split at hm <;> omega
  unfold availableReadSamples at hm ⊢
  split_ifs at hmc ⊢ <;> split_ifs at hm <;> omega

/-- Helper: the (possibly split) contiguous reads of `RingBuffer::read`
produce exactly the `m` samples starting at the read position modulo the
capacity. -/
theorem read_result_eq {α : Type} (buf : Nat → α) (cap r m : Nat)
    (hr : r < cap) (hm : m ≤ cap) :
    (if r + m ≤ cap then readRange buf r m
     else readRange buf r (cap - r) ++ readRange buf 0 (m - (cap - r))) =
    (List.range m).map (fun j => buf ((r + j) % cap)) := by
  split
  · rename_i hb
    unfold readRange
    apply List.map_congr_left
    intro j hj
    rw [List.mem_range] at hj
    rw [Nat.mod_eq_of_lt (by omega)]
  · rename_i hb
    obtain ⟨k, hk⟩ : ∃ k, m = (cap - r) + k := ⟨m - (cap - r), by omega⟩
    have h2 : (cap - r) + k - (cap - r) = k := by omega
    rw [hk, h2, List.range_add, List.map_append, List.map_map]
    unfold readRange
    congr 1
    · apply List.map_congr_left
      intro j hj
      rw [List.mem_range] at hj
      rw [Nat.mod_eq_of_lt (by omega)]
    · apply List.map_congr_left
      intro j hj
      rw [List.mem_range] at hj
      show buf (0 + j) = buf ((r + (cap - r + j)) % cap)
      have h3 : r + (cap - r + j) = cap + j := by omega
      rw [h3, Nat.add_mod_left, Nat.mod_eq_of_lt (by omega), Nat.zero_add]

/-- Helper: the wrap distance from the write position of the `i`-th slot
after the read position. -/
theorem wrap_distance (cap w r a i : Nat) (hw : w < cap) (hr : r < cap)
    (ha : availableReadSamples cap w r = a) (hi : i < cap) :
    (cap + ((r + i) % cap) - w) % cap =
      if i < a then cap + i - a else i - a := by
  have hacap : a ≤ cap - 1 := ha ▸ avail_le cap w r hw hr
  by_cases hri : r + i < cap
  · have hs : (r + i) % cap = r + i := Nat.mod_eq_of_lt hri
    rw [hs]
    rw [mod_two_cases (cap + (r + i) - w) cap (by omega) (by omega)]
    unfold availableReadSamples at ha
    split_ifs at ha ⊢ <;> omega
  · have hs : (r + i) % cap = r + i - cap := by
      rw [mod_two_cases (r + i) cap (by omega) (by omega), if_neg hri]
    rw [hs]
    rw [mod_two_cases (cap + (r + i - cap) - w) cap (by omega) (by omega)]
    unfold availableReadSamples at ha
    split_ifs at ha ⊢ <;> omega

/-- Helper: full specification of one `write` call on a valid buffer: the
return value is `min(len, capacity - 1 - available)` and the pending
contents gain exactly the accepted prefix. -/
theorem write_spec {α : Type} (rb : RingBuffer α) (xs : List α)
    (h : rb.Valid) :
    (rb.write xs).2 = min xs.length (rb.capacity - 1 - rb.available) ∧
    (rb.write xs).1.Valid ∧
    (rb.write xs).1.capacity = rb.capacity ∧
    (rb.write xs).1.readPos = rb.readPos ∧
    (rb.write xs).1.contents = rb.contents ++ xs.take (rb.write xs).2 := by
  obtain ⟨buf, cap, w, r⟩ := rb
  obtain ⟨hw, hr⟩ := h
  simp only [RingBuffer.Valid, RingBuffer.available] at hw hr ⊢
  have hfree : availableWriteSpace cap w r =
      cap - 1 - availableReadSamples cap w r := by
    unfold availableWriteSpace
    omega
  simp only [RingBuffer.write, RingBuffer.contents, RingBuffer.available]
  rw [hfree]
  obtain ⟨a, ha⟩ : ∃ a, availableReadSamples cap w r = a := ⟨_, rfl⟩
  rw [ha]
  have hacap : a ≤ cap - 1 := ha ▸ avail_le cap w r hw hr
  obtain ⟨n, hn⟩ : ∃ n, min xs.length (cap - 1 - a) = n := ⟨_, rfl⟩
  rw [hn]
  have hnle : n ≤ xs.length := by omega
  have hncap : n ≤ cap := by omega
  by_cases hz : n = 0
  · rw [if_pos hz]
    refine ⟨by omega, ⟨hw, hr⟩, rfl, rfl, ?_⟩
    simp only [RingBuffer.contents, RingBuffer.available, ha, hz,
      List.take_zero, List.append_nil]
  · rw [if_neg hz]
    refine ⟨rfl, ⟨Nat.mod_lt _ (by omega), hr⟩, rfl, rfl, ?_⟩
    simp only [RingBuffer.contents, RingBuffer.available]
    have havail : availableReadSamples cap ((w + n) % cap) r = a + n := by
      have := avail_after_write cap w r n hw hr (by omega)
      omega
    rw [havail]
    rw [List.range_add, List.map_append]
    congr 1
    · apply List.map_congr_left
      intro i hi
      rw [List.mem_range] at hi
      have hs : (r + i) % cap < cap := Nat.mod_lt _ (by omega)
      have hbufeq := write_buffer_eq buf cap w n xs hw hnle hncap
        ((r + i) % cap) hs
      have hicap : i < cap := by omega
      rw [wrap_distance cap w r a i hw hr ha hicap] at hbufeq
      rw [if_pos hi] at hbufeq
      have hcond : ¬ (cap + i - a < n) := by omega
      rw [if_neg hcond] at hbufeq
      exact hbufeq
    · rw [List.map_map]
      apply List.ext_getElem
      · simp only [List.length_map, List.length_range, List.length_take]
        omega
      · intro j h1 h2
        simp only [List.length_map, List.length_range] at h1
        have hs : (r + (a + j)) % cap < cap := Nat.mod_lt _ (by omega)
        have hbufeq := write_buffer_eq buf cap w n xs hw hnle hncap
          ((r + (a + j)) % cap) hs
        have hjcap : a + j < cap := by omega
        rw [wrap_distance cap w r a (a + j) hw hr ha hjcap] at hbufeq
        have hcond1 : ¬ (a + j < a) := by omega
        rw [if_neg hcond1] at hbufeq
        have hj : a + j - a = j := by omega
        rw [hj] at hbufeq
        have hcond2 : j < n := by omega
        rw [if_pos hcond2] at hbufeq
        have hjlen : j < xs.length := by omega
        have hget : xs.get? j = some (xs.get ⟨j, hjlen⟩) := by
          rw [List.get?_eq_getElem?]
          exact List.getElem?_eq_getElem hjlen
        rw [hget] at hbufeq
        simp only [List.getElem_map, List.getElem_range, List.getElem_take,
          Function.comp_apply]
        rw [hbufeq]
        simp

/-- Helper: full specification of one `read` call on a valid buffer: the
return count is `min(requested, available)`, the produced samples are the
oldest pending ones in order, and they leave the pending contents. -/
theorem read_spec {α : Type} (rb : RingBuffer α) (outputLen : Nat)
    (h : rb.Valid) :
    (rb.read outputLen).2.length = min outputLen rb.available ∧
    (rb.read outputLen).1.Valid ∧
    (rb.read outputLen).1.capacity = rb.capacity ∧
    (rb.read outputLen).1.writePos = rb.writePos ∧
    (rb.read outputLen).2 = rb.contents.take (min outputLen rb.available) ∧
    (rb.read outputLen).1.contents =
      rb.contents.drop (min outputLen rb.available) := by
  obtain ⟨buf, cap, w, r⟩ := rb
  obtain ⟨hw, hr⟩ := h
  simp only [RingBuffer.Valid, RingBuffer.available] at hw hr ⊢
  simp only [RingBuffer.read, RingBuffer.contents, RingBuffer.available]
  obtain ⟨a, ha⟩ : ∃ a, availableReadSamples cap w r = a := ⟨_, rfl⟩
  rw [ha]
  have hacap : a ≤ cap - 1 := ha ▸ avail_le cap w r hw hr
  obtain ⟨m, hm⟩ : ∃ m, min outputLen a = m := ⟨_, rfl⟩
  rw [hm]
  have hma : m ≤ a := by omega
  have hmcap : m ≤ cap := by omega
  have htake : (List.range a).take m = List.range m := by
    rw [List.take_range, Nat.min_eq_left hma]
  by_cases hz : m = 0
  · rw [if_pos hz]
    subst hz
    refine ⟨rfl, ⟨hw, hr⟩, rfl, rfl, by simp, ?_⟩
    simp only [RingBuffer.contents, RingBuffer.available, ha, List.drop_zero]
  · rw [if_neg hz]
    have hres := read_result_eq buf cap r m hr hmcap
    refine ⟨?_, ⟨hw, Nat.mod_lt _ (by omega)⟩, rfl, rfl, ?_, ?_⟩
    · rw [hres]
      simp
    · rw [hres, ← List.map_take, htake]
    · simp only [RingBuffer.contents, RingBuffer.available]
      have havail : availableReadSamples cap w ((r + m) % cap) = a - m := by
        have := avail_after_read cap w r m hw hr (by omega)
        omega
      rw [havail]
      rw [← List.map_drop]
      obtain ⟨k, hk⟩ : ∃ k, a = m + k := ⟨a - m, by omega⟩
      have hk2 : a - m = k := by omega
      rw [hk2, hk, List.range_add,
        List.drop_append_of_le_length (by simp)]
      have hnil : (List.range m).drop m = [] := by
        apply List.drop_eq_nil_of_le
        simp
      rw [hnil, List.nil_append, List.map_map]
      apply List.map_congr_left
      intro i hi
      rw [List.mem_range] at hi
      simp only [Function.comp_apply]
      rw [Nat.mod_add_mod]
      have harg : r + (m + i) = r + m + i := by omega
      rw [harg]

/-- Helper: the pending contents have length `available()`. -/
theorem contents_length {α : Type} (rb : RingBuffer α) :
    rb.contents.length = rb.available := by
  simp [RingBuffer.contents]

/-- Helper (trace invariant): along any run, the buffer stays valid, keeps
its capacity, the samples read so far followed by the pending contents are
exactly the accepted writes in order, and the returned counts sum the
lists. -/
theorem rbRun_inv {α : Type} (capacity : Nat) :
    ∀ (ops : List (RBOp α)) (tr : RBTrace α),
      tr.rb.Valid → tr.rb.capacity = capacity →
      tr.readOut ++ tr.rb.contents = tr.written →
      tr.writtenSum = tr.written.length →
      tr.readSum = tr.readOut.length →
      (ops.foldl rbStep tr).rb.Valid ∧
      (ops.foldl rbStep tr).rb.capacity = capacity ∧
      (ops.foldl rbStep tr).readOut ++ (ops.foldl rbStep tr).rb.contents =
        (ops.foldl rbStep tr).written ∧
      (ops.foldl rbStep tr).writtenSum =
        (ops.foldl rbStep tr).written.length ∧
      (ops.foldl rbStep tr).readSum =
        (ops.foldl rbStep tr).readOut.length := by
  intro ops
  induction ops with
  | nil =>
    intro tr h1 h2 h3 h4 h5
    exact ⟨h1, h2, h3, h4, h5⟩
  | cons op rest ih =>
    intro tr h1 h2 h3 h4 h5
    rw [List.foldl_cons]
    apply ih
    case _ =>
      cases op with
      | write xs => exact (write_spec tr.rb xs h1).2.1
      | read k => exact (read_spec tr.rb k h1).2.1
    case _ =>
      cases op with
      | write xs => exact (write_spec tr.rb xs h1).2.2.1.trans h2
      | read k => exact (read_spec tr.rb k h1).2.2.1.trans h2
    case _ =>
      cases op with
      | write xs =>
        show tr.readOut ++ (tr.rb.write xs).1.contents =
          tr.written ++ xs.take (tr.rb.write xs).2
        rw [(write_spec tr.rb xs h1).2.2.2.2, ← List.append_assoc, h3]
      | read k =>
        show tr.readOut ++ (tr.rb.read k).2 ++ (tr.rb.read k).1.contents =
          tr.written
        rw [(read_spec tr.rb k h1).2.2.2.2.1,
          (read_spec tr.rb k h1).2.2.2.2.2, List.append_assoc,
          List.take_append_drop, h3]
    case _ =>
      cases op with
      | write xs =>
        show tr.writtenSum + (tr.rb.write xs).2 =
          (tr.written ++ xs.take (tr.rb.write xs).2).length
        rw [List.length_append, List.length_take]
        have hmin := (write_spec tr.rb xs h1).1
        omega
      | read k =>
        exact h4
    case _ =>
      cases op with
      | write xs => exact h5
      | read k =>
        show tr.readSum + (tr.rb.read k).2.length =
          (tr.readOut ++ (tr.rb.read k).2).length
        rw [List.length_append]
        omega

/-- C5: for every sequence of single-producer single-consumer `write` and
`read` calls on a fresh buffer, the samples are read back in exactly the
order they were written (reads so far plus pending contents equal the
accepted writes), the sums of returned write and read counts satisfy
`written - read = available()` at every quiescent point, and each `write`
returns `min(requested, free)` (free reserves one slot) while each `read`
returns `min(requested, available)`. -/
theorem ring_buffer_round_trip {α : Type} [Inhabited α] (capacity : Nat)
    (hcap : 1 ≤ capacity) (ops : List (RBOp α)) :
    (rbRun capacity ops).readOut ++ (rbRun capacity ops).rb.contents =
      (rbRun capacity ops).written ∧
    (rbRun capacity ops).writtenSum = (rbRun capacity ops).written.length ∧
    (rbRun capacity ops).readSum = (rbRun capacity ops).readOut.length ∧
    (rbRun capacity ops).writtenSum - (rbRun capacity ops).readSum =
      (rbRun capacity ops).rb.available ∧
    (∀ xs : List α, ((rbRun capacity ops).rb.write xs).2 =
      min xs.length (capacity - 1 - (rbRun capacity ops).rb.available)) ∧
    (∀ k : Nat, ((rbRun capacity ops).rb.read k).2.length =
      min k (rbRun capacity ops).rb.available) := by
  have h0 : (RingBuffer.new α capacity).Valid := by
    refine ⟨?_, ?_⟩ <;> simp [RingBuffer.new] <;> omega
  obtain ⟨hv, hc, h3, h4, h5⟩ :
      (rbRun capacity ops).rb.Valid ∧
      (rbRun capacity ops).rb.capacity = capacity ∧
      (rbRun capacity ops).readOut ++ (rbRun capacity ops).rb.contents =
        (rbRun capacity ops).written ∧
      (rbRun capacity ops).writtenSum = (rbRun capacity ops).written.length ∧
      (rbRun capacity ops).readSum = (rbRun capacity ops).readOut.length :=
    rbRun_inv capacity ops
      { rb := RingBuffer.new α capacity, written := [], readOut := [],
        writtenSum := 0, readSum := 0 }
      h0 rfl rfl rfl rfl
  have hlen : (rbRun capacity ops).readOut.length +
      (rbRun capacity ops).rb.contents.length =
      (rbRun capacity ops).written.length := by
    rw [← List.length_append]
    exact congrArg List.length h3
  have hcl := contents_length (rbRun capacity ops).rb
  refine ⟨h3, h4, h5, by omega, ?_, ?_⟩
  · intro xs
    have := (write_spec (rbRun capacity ops).rb xs hv).1
    rw [hc] at this
    exact this
  · intro k
    exact (read_spec (rbRun capacity ops).rb k hv).1

/-- C5 witness: a concrete run on a buffer of capacity 4. -/
theorem ring_buffer_round_trip_witness :
    (rbRun 4 [RBOp.write [1, 2, 3], RBOp.read 2]).readOut ++
      (rbRun 4 [RBOp.write [1, 2, 3], RBOp.read 2]).rb.contents =
      (rbRun 4 [RBOp.write [1, 2, 3], RBOp.read 2]).written ∧
    (rbRun 4 [RBOp.write [1, 2, 3], RBOp.read 2]).writtenSum -
      (rbRun 4 [RBOp.write [1, 2, 3], RBOp.read 2]).readSum =
      (rbRun (α := Nat) 4 [RBOp.write [1, 2, 3], RBOp.read 2]).rb.available :=
  ⟨(ring_buffer_round_trip 4 (by decide) [RBOp.write [1, 2, 3], RBOp.read 2]).1,
   (ring_buffer_round_trip 4 (by decide)
     [RBOp.write [1, 2, 3], RBOp.read 2]).2.2.2.1⟩

end AxonBridge
